import Mathlib

/-!
Verification of the OpenAPI slice engine (`src/main.py`).

The engine (`OpenAPISpecProcessor`) holds a parsed OpenAPI document (a
JSON-like tree of mappings, sequences and scalars) and extracts, for a
single `(path, method)` operation, a minimal slice of the document together
with the transitive closure of all `#/components/schemas/<Name>` references
reachable from that operation.

The shallow embedding below mirrors the Python source:
  * `Json` models the parsed document tree (Python dict / list / scalars);
    mappings are insertion-ordered association lists with string keys, as
    produced by `yaml.safe_load` / `json.load` on JSON-like documents.
  * `pySplit` and `pyStartsWith` model Python's `str.split(sep)` and
    `str.startswith`.
  * `extract_refs` models the inner recursive walker of
    `_find_referenced_components`; `fixLoop` models its
    `while found_new_refs` fixed-point loop (the loop is modelled by
    well-founded recursion on set growth, exactly the argument that makes
    the Python loop terminate).
  * `extract_components`, `extract_endpoint_slice`, `list_endpoints` and
    `extract_endpoint_slice_tool` model the remaining methods and the MCP
    tool wrapper.
On documents where the Python code would raise a type error (for example a
`$ref` key holding a non-string, or a path item that is not a mapping), the
embedding totalises with a neutral value (`Json.asDict` of a non-object is
`[]`); all claims below concern well-shaped documents where the two agree.
-/

/-- A parsed JSON/YAML-like document tree (Python's dict/list/scalar values).
Mappings are insertion-ordered association lists with string keys. -/
inductive Json where
  | null : Json
  | bool : Bool → Json
  | num : Int → Json
  | str : String → Json
  | arr : List Json → Json
  | obj : List (String × Json) → Json
deriving Inhabited

/-- A Python dict with string keys, in insertion order. -/
abbrev JDict := List (String × Json)

namespace JDict

/-- `d.get(k)` / `k in d`: the value of the first (in a Python dict, only)
binding of key `k`. -/
def get? (d : JDict) (k : String) : Option Json :=
  (d.find? (fun p => p.1 = k)).map Prod.snd

/-- `d.get(k, default)`. -/
def getD (d : JDict) (k : String) (v : Json) : Json :=
  (d.get? k).getD v

/-- `k in d`. -/
def hasKey (d : JDict) (k : String) : Bool :=
  (d.get? k).isSome

end JDict

/-- View a value as a Python dict; non-objects (on which the Python code
would raise) collapse to the empty dict. -/
def Json.asDict : Json → JDict
  | .obj kvs => kvs
  | _ => []

/-- Dict lookup on a `Json` object value. -/
def Json.lookup (j : Json) (k : String) : Option Json :=
  j.asDict.get? k

/-- Python `str.split(sep)` on the character list of a string (with an
explicit single-character separator, as in `ref_path.split("/")`).
`"a//b" ↦ [a, "", b]`, `"" ↦ [""]`; the result is never empty. -/
def splitChar (sep : Char) : List Char → List (List Char)
  | [] => [[]]
  | c :: cs =>
    if c = sep then [] :: splitChar sep cs
    else
      match splitChar sep cs with
      | [] => [[c]]
      | p :: ps => (c :: p) :: ps

/-- Python `s.split(sep)` for a one-character separator. -/
def pySplit (s : String) (sep : Char) : List String :=
  (splitChar sep s.data).map (fun cs => String.mk cs)

/-- Python `s.startswith(pre)`. -/
def pyStartsWith (s pre : String) : Bool :=
  pre.data.isPrefixOf s.data

/-- Python `s.lower()` (ASCII case mapping, which covers HTTP method and
format-flag strings; modelled character-wise on the string's data). -/
def pyLower (s : String) : String := .mk (s.data.map Char.toLower)

/-- Python `s.upper()`. -/
def pyUpper (s : String) : String := .mk (s.data.map Char.toUpper)

/-- The reference shape recognised by the engine: `"#/components/schemas/"`. -/
def refHead : String := "#/components/schemas/"

/-- `ref_path.split("/")[-1]`: the trailing name of a reference string. -/
def refNameOf (s : String) : String :=
  (pySplit s '/').getLastD ""

mutual

/-- The inner walker `extract_refs` of `_find_referenced_components`:
collect the schema name of every `$ref` of the recognised shape anywhere in
the value, recursing into all mapping values and sequence elements. -/
def extract_refs : Json → Finset String
  | .obj kvs =>
    (match JDict.get? kvs "$ref" with
     | some (.str s) =>
       if pyStartsWith s refHead then {refNameOf s} else ∅
     | _ => ∅) ∪ extractRefsVals kvs
  | .arr xs => extractRefsElems xs
  | _ => ∅

/-- `extract_refs` over all values of a mapping (`for value in obj.values()`). -/
def extractRefsVals : List (String × Json) → Finset String
  | [] => ∅
  | kv :: rest => extract_refs kv.2 ∪ extractRefsVals rest

/-- `extract_refs` over all elements of a sequence (`for item in obj`). -/
def extractRefsElems : List Json → Finset String
  | [] => ∅
  | x :: rest => extract_refs x ∪ extractRefsElems rest

end

/-- The contribution of one name in the working set during one pass of the
fixed-point loop: `extract_refs` of its definition when the name is a key of
`components.schemas` (`if ref in self._components.get("schemas", {})`),
nothing otherwise. -/
def defnRefs (schemas : JDict) (r : String) : Finset String :=
  match JDict.get? schemas r with
  | some d => extract_refs d
  | none => ∅

/-- One pass of the `while found_new_refs` loop of
`_find_referenced_components`: scan the definition of every name currently
in the set and union in every reference found.  (Within a pass the Python
code iterates over the snapshot `current_refs = refs.copy()`, and each
`extract_refs(schema)` call adds a set that does not depend on the
accumulator, so the pass as a whole computes exactly this union.) -/
def expandOnce (schemas : JDict) (refs : Finset String) : Finset String :=
  refs ∪ refs.biUnion (defnRefs schemas)

/-- Union of `extract_refs` over all schema definitions; every pass stays
inside `refs ∪ allDefnRefs`, which bounds the loop. -/
def allDefnRefs (schemas : JDict) : Finset String :=
  schemas.foldr (fun kv acc => extract_refs kv.2 ∪ acc) ∅

theorem subset_expandOnce (schemas : JDict) (refs : Finset String) :
    refs ⊆ expandOnce schemas refs :=
  Finset.subset_union_left

theorem defnRefs_subset_allDefnRefs (schemas : JDict) (r : String) :
    defnRefs schemas r ⊆ allDefnRefs schemas := by
  unfold defnRefs
  cases hfind : JDict.get? schemas r with
  | none => simp
  | some d =>
    unfold JDict.get? at hfind
    rcases Option.map_eq_some'.mp hfind with ⟨p, hp, hpd⟩
    have hmem : p ∈ schemas := List.mem_of_find?_eq_some hp
    subst hpd
    clear hp hfind
    induction schemas with
    | nil => cases hmem
    | cons q rest ih =>
      unfold allDefnRefs
      rcases List.mem_cons.mp hmem with h | h
      · subst h
        exact Finset.subset_union_left
      · exact (ih h).trans Finset.subset_union_right

theorem expandOnce_subset_union (schemas : JDict) (refs : Finset String) :
    expandOnce schemas refs ⊆ refs ∪ allDefnRefs schemas := by
  unfold expandOnce
  apply Finset.union_subset Finset.subset_union_left
  apply Finset.Subset.trans _ Finset.subset_union_right
  intro x hx
  rcases Finset.mem_biUnion.mp hx with ⟨r, _, hr⟩
  exact defnRefs_subset_allDefnRefs schemas r hr

/-- The `while found_new_refs` fixed-point loop of
`_find_referenced_components`: repeat passes until a pass adds nothing.
Termination: each further pass strictly grows the set, which stays inside
the fixed bound `refs ∪ allDefnRefs schemas`. -/
def fixLoop (schemas : JDict) (refs : Finset String) : Finset String :=
  if h : expandOnce schemas refs = refs then refs
  else fixLoop schemas (expandOnce schemas refs)
termination_by (refs ∪ allDefnRefs schemas).card - refs.card
decreasing_by
  have hsub : refs ⊆ expandOnce schemas refs := subset_expandOnce schemas refs
  have hssub : refs ⊂ expandOnce schemas refs := ⟨hsub, fun hba => h (Finset.Subset.antisymm hba hsub)⟩
  have hcard : refs.card < (expandOnce schemas refs).card := Finset.card_lt_card hssub
  have hUeq : expandOnce schemas refs ∪ allDefnRefs schemas = refs ∪ allDefnRefs schemas := by
    apply Finset.Subset.antisymm
    · exact Finset.union_subset
        ((expandOnce_subset_union schemas refs).trans
          (Finset.union_subset_union_left Finset.Subset.rfl))
        Finset.subset_union_right
    · exact Finset.union_subset_union_left hsub
  have hbound : (expandOnce schemas refs).card ≤ (refs ∪ allDefnRefs schemas).card := by
    calc (expandOnce schemas refs).card
        ≤ (expandOnce schemas refs ∪ allDefnRefs schemas).card :=
          Finset.card_le_card Finset.subset_union_left
      _ = (refs ∪ allDefnRefs schemas).card := by rw [hUeq]
  rw [hUeq]
  omega

/-- The engine: `OpenAPISpecProcessor.__init__` stores the parsed document
(`spec_data`, a mapping — the loader rejects anything else). -/
structure OpenAPISpecProcessor where
  spec : JDict

namespace OpenAPISpecProcessor

/-- `self._components = spec_data.get("components", {})`. -/
def componentsDict (P : OpenAPISpecProcessor) : JDict :=
  (JDict.getD P.spec "components" (.obj [])).asDict

/-- `self._paths = spec_data.get("paths", {})`. -/
def pathsDict (P : OpenAPISpecProcessor) : JDict :=
  (JDict.getD P.spec "paths" (.obj [])).asDict

/-- `self._components.get("schemas", {})`. -/
def schemasDict (P : OpenAPISpecProcessor) : JDict :=
  (JDict.getD P.componentsDict "schemas" (.obj [])).asDict

/-- `_find_referenced_components`: direct references of the operation, then
the fixed-point loop over schema definitions. -/
def find_referenced_components (P : OpenAPISpecProcessor) (endpoint_spec : Json) :
    Finset String :=
  fixLoop P.schemasDict (extract_refs endpoint_spec)

end OpenAPISpecProcessor

/-- The eight non-schema component categories copied by
`_extract_components`. -/
def compTypes : List String :=
  ["responses", "parameters", "examples", "requestBodies", "headers",
   "securitySchemes", "links", "callbacks"]

/-- `_extract_components`: the `schemas` category filtered to the given
names (when the name set is non-empty — Python truthiness — and the source
has a `schemas` category), followed by every other recognised category
copied whole when present.  Python iterates the name set in unspecified set
order; we keep the source's insertion order, which has the same keys and
values. -/
def extract_components (comps : JDict) (schema_names : Finset String) : JDict :=
  (if schema_names ≠ ∅ then
    match JDict.get? comps "schemas" with
    | some schemasVal =>
      [("schemas",
        Json.obj ((schemasVal.asDict).filter (fun kv => decide (kv.1 ∈ schema_names))))]
    | none => []
   else []) ++
  compTypes.filterMap (fun t => (JDict.get? comps t).map (fun v => (t, v)))

/-- The endpoint lookup of `extract_endpoint_slice`:
`self._paths[path][method]` guarded by
`path not in self._paths or method not in self._paths[path]`. -/
def lookupOp (P : OpenAPISpecProcessor) (path m : String) : Option Json :=
  (JDict.get? P.pathsDict path).bind (fun pathItem => JDict.get? pathItem.asDict m)

/-- The slice document assembled by `extract_endpoint_slice` (its
`slice_spec` dict): `m` is the already-lowered method, `refs` the computed
closure.  `components` stays the initial `{}` unless the closure is
non-empty (`if referenced_schemas:`). -/
def assembleSlice (P : OpenAPISpecProcessor) (path m : String) (op : Json)
    (refs : Finset String) : Json :=
  .obj [
    ("openapi", JDict.getD P.spec "openapi" (.str "3.0.0")),
    ("info", JDict.getD P.spec "info" (.obj [])),
    ("servers", JDict.getD P.spec "servers" (.arr [])),
    ("paths", .obj [(path, .obj [(m, op)])]),
    ("components",
      if refs = ∅ then .obj []
      else .obj (extract_components P.componentsDict refs))]

/-- `OpenAPISpecProcessor.extract_endpoint_slice`: lower the method, check
the endpoint exists (otherwise `raise ValueError(...)`), compute the
reference closure of the operation, and assemble the slice. -/
def extract_endpoint_slice (P : OpenAPISpecProcessor) (path method : String) :
    Except String Json :=
  let m := pyLower method
  match lookupOp P path m with
  | none => .error ("Endpoint " ++ pyUpper m ++ " " ++ path ++ " not found in spec")
  | some op => .ok (assembleSlice P path m op (P.find_referenced_components op))

/-- One record of `list_endpoints` (`{"path": ..., "method": ...,
"summary": ..., "operationId": ...}`; the last two are `.get` results with
a `""` default, so they are arbitrary document values when present). -/
structure EndpointRec where
  path : String
  method : String
  summary : Json
  operationId : Json

/-- The three path-item keys skipped by `list_endpoints`. -/
def reservedKeys : List String := ["parameters", "summary", "description"]

/-- `OpenAPISpecProcessor.list_endpoints`: for every path, for every key of
its mapping other than the reserved three, emit a record, in the document's
insertion order (`methods[method]` is the dict lookup of the iterated key). -/
def list_endpoints (P : OpenAPISpecProcessor) : List EndpointRec :=
  P.pathsDict.flatMap (fun pm =>
    let methods := pm.2.asDict
    (methods.map Prod.fst).filterMap (fun m =>
      if m ∈ reservedKeys then none
      else
        let op := (JDict.getD methods m .null).asDict
        some ⟨pm.1, pyUpper m, JDict.getD op "summary" (.str ""),
              JDict.getD op "operationId" (.str "")⟩))

mutual

/-- A canonical JSON rendering.  Modelled from the spec: serialisation of
the computed slice (`json.dumps` / `yaml.dump`) is an external collaborator
out of scope; the claims only need it to be a pure function of the slice,
so any concrete encoder serves. -/
def dumpJson : Json → String
  | .null => "null"
  | .bool b => if b then "true" else "false"
  | .num n => toString n
  | .str s => "\"" ++ s ++ "\""
  | .arr xs => "[" ++ String.intercalate "," (dumpJsonList xs) ++ "]"
  | .obj kvs => "\x7b" ++ String.intercalate "," (dumpJsonFields kvs) ++ "\x7d"

/-- Renderings of the elements of a sequence. -/
def dumpJsonList : List Json → List String
  | [] => []
  | x :: rest => dumpJson x :: dumpJsonList rest

/-- Renderings of the fields of a mapping. -/
def dumpJsonFields : List (String × Json) → List String
  | [] => []
  | kv :: rest => ("\"" ++ kv.1 ++ "\":" ++ dumpJson kv.2) :: dumpJsonFields rest

end

/-- A YAML rendering stand-in.  Modelled from the spec: `yaml.dump` is an
external collaborator out of scope; modelled as another pure encoding. -/
def dumpYaml (j : Json) : String := "%YAML " ++ dumpJson j

/-- The MCP server state: the module-level `current_processor` global. -/
structure ServerState where
  current_processor : Option OpenAPISpecProcessor

/-- The `extract_endpoint_slice` MCP tool: check a document is loaded and
the format flag is valid, run the engine, and turn a `ValueError` into an
`"Error: ..."` message.  The tool only reads `current_processor`, so the
returned state is the input state on every branch. -/
def extract_endpoint_slice_tool (st : ServerState)
    (path method output_format : String) : String × ServerState :=
  match st.current_processor with
  | none => ("Error: No OpenAPI specification loaded. Use 'load_openapi_spec' first.", st)
  | some P =>
    if pyLower output_format ≠ "yaml" ∧ pyLower output_format ≠ "json" then
      ("Error: output_format must be 'yaml' or 'json'", st)
    else
      match extract_endpoint_slice P path method with
      | .error e => ("Error: " ++ e, st)
      | .ok sliceSpec =>
        (if pyLower output_format = "json" then dumpJson sliceSpec
         else dumpYaml sliceSpec, st)

/-! ### The fixed-point loop reaches its fixed point in at most
`|schemas| + 1` passes -/

/-- The keys of a dict, as a set. -/
def keyFinset (d : JDict) : Finset String := (d.map Prod.fst).toFinset

theorem mem_keyFinset (d : JDict) (k : String) :
    k ∈ keyFinset d ↔ ∃ p ∈ d, p.1 = k := by
  unfold keyFinset
  rw [List.mem_toFinset, List.mem_map]

theorem get?_eq_none_of_not_mem (d : JDict) (k : String) (h : k ∉ keyFinset d) :
    JDict.get? d k = none := by
  unfold JDict.get?
  rw [Option.map_eq_none', List.find?_eq_none]
  intro p hp
  simp only [decide_eq_true_eq]
  intro hpk
  exact h ((mem_keyFinset d k).mpr ⟨p, hp, hpk⟩)

theorem defnRefs_eq_empty (schemas : JDict) (r : String) (h : r ∉ keyFinset schemas) :
    defnRefs schemas r = ∅ := by
  unfold defnRefs
  rw [get?_eq_none_of_not_mem schemas r h]

theorem biUnion_defnRefs_inter (schemas : JDict) (refs : Finset String) :
    refs.biUnion (defnRefs schemas) =
      (refs ∩ keyFinset schemas).biUnion (defnRefs schemas) := by
  apply Finset.Subset.antisymm
  · intro x hx
    rcases Finset.mem_biUnion.mp hx with ⟨r, hr, hxr⟩
    by_cases hk : r ∈ keyFinset schemas
    · exact Finset.mem_biUnion.mpr ⟨r, Finset.mem_inter.mpr ⟨hr, hk⟩, hxr⟩
    · rw [defnRefs_eq_empty schemas r hk] at hxr
      cases Finset.not_mem_empty x hxr
  · intro x hx
    rcases Finset.mem_biUnion.mp hx with ⟨r, hr, hxr⟩
    exact Finset.mem_biUnion.mpr ⟨r, (Finset.mem_inter.mp hr).1, hxr⟩

/-- If a pass adds no new name that is a schema key, the next pass adds
nothing at all. -/
theorem expandOnce_stall (schemas : JDict) (refs : Finset String)
    (h : expandOnce schemas refs ∩ keyFinset schemas = refs ∩ keyFinset schemas) :
    expandOnce schemas (expandOnce schemas refs) = expandOnce schemas refs := by
  apply Finset.Subset.antisymm
  · apply Finset.union_subset Finset.Subset.rfl
    rw [biUnion_defnRefs_inter, h, ← biUnion_defnRefs_inter]
    unfold expandOnce
    exact Finset.subset_union_right
  · exact subset_expandOnce schemas (expandOnce schemas refs)

theorem subset_iterate (schemas : JDict) (refs : Finset String) (n : ℕ) :
    refs ⊆ (expandOnce schemas)^[n] refs := by
  induction n with
  | zero => exact Finset.Subset.rfl
  | succ n ih =>
    rw [Function.iterate_succ_apply']
    exact ih.trans (subset_expandOnce schemas _)

theorem iterate_subset_succ (schemas : JDict) (refs : Finset String) (n : ℕ) :
    (expandOnce schemas)^[n] refs ⊆ (expandOnce schemas)^[n + 1] refs := by
  rw [Function.iterate_succ_apply']
  exact subset_expandOnce schemas _

theorem iterate_of_fixed (schemas : JDict) (refs : Finset String)
    (h : expandOnce schemas refs = refs) (n : ℕ) :
    (expandOnce schemas)^[n] refs = refs := by
  induction n with
  | zero => rfl
  | succ n ih => rw [Function.iterate_succ_apply', ih, h]

/-- Pigeonhole over the growing chain of reached schema keys: within
`(keyFinset schemas).card + 1` passes, some pass adds no new schema key. -/
theorem exists_stall (schemas : JDict) (refs : Finset String) :
    ∃ k ≤ (keyFinset schemas).card,
      (expandOnce schemas)^[k + 1] refs ∩ keyFinset schemas =
        (expandOnce schemas)^[k] refs ∩ keyFinset schemas := by
  by_contra hno
  push_neg at hno
  have hgrow : ∀ k ≤ (keyFinset schemas).card,
      ((expandOnce schemas)^[k] refs ∩ keyFinset schemas).card <
        ((expandOnce schemas)^[k + 1] refs ∩ keyFinset schemas).card := by
    intro k hk
    apply Finset.card_lt_card
    refine ⟨Finset.inter_subset_inter (iterate_subset_succ schemas refs k)
      Finset.Subset.rfl, fun hba => ?_⟩
    exact hno k hk (Finset.Subset.antisymm hba
      (Finset.inter_subset_inter (iterate_subset_succ schemas refs k) Finset.Subset.rfl))
  have hlow : ∀ k, k ≤ (keyFinset schemas).card + 1 →
      k ≤ ((expandOnce schemas)^[k] refs ∩ keyFinset schemas).card := by
    intro k
    induction k with
    | zero => intro _; exact Nat.zero_le _
    | succ k ih =>
      intro hk
      have h1 := ih (Nat.le_of_succ_le hk)
      have h2 := hgrow k (Nat.lt_succ_iff.mp hk)
      omega
  have hcap : (((expandOnce schemas)^[(keyFinset schemas).card + 1] refs) ∩
      keyFinset schemas).card ≤ (keyFinset schemas).card :=
    Finset.card_le_card Finset.inter_subset_right
  have := hlow ((keyFinset schemas).card + 1) (Nat.le_refl _)
  omega

theorem keyFinset_card_le (d : JDict) : (keyFinset d).card ≤ d.length := by
  unfold keyFinset
  calc (d.map Prod.fst).toFinset.card ≤ (d.map Prod.fst).length :=
        (d.map Prod.fst).toFinset_card_le
    _ = d.length := List.length_map _ _

/-- After `|schemas| + 1` passes the working set is a fixed point of the
pass function: a further pass adds nothing. -/
theorem iterate_succ_len_fixed (schemas : JDict) (refs : Finset String) :
    expandOnce schemas ((expandOnce schemas)^[schemas.length + 1] refs) =
      (expandOnce schemas)^[schemas.length + 1] refs := by
  rcases exists_stall schemas refs with ⟨k, hk, hstall⟩
  have hfix : expandOnce schemas ((expandOnce schemas)^[k + 1] refs) =
      (expandOnce schemas)^[k + 1] refs := by
    rw [Function.iterate_succ_apply']
    apply expandOnce_stall
    rw [Function.iterate_succ_apply'] at hstall
    exact hstall
  have hle : k + 1 ≤ schemas.length + 1 :=
    Nat.succ_le_succ (hk.trans (keyFinset_card_le schemas))
  have hrest : (expandOnce schemas)^[schemas.length + 1] refs =
      (expandOnce schemas)^[k + 1] refs := by
    have : schemas.length + 1 = (schemas.length - k) + (k + 1) := by omega
    rw [this, Function.iterate_add_apply,
      iterate_of_fixed schemas _ hfix (schemas.length - k)]
  rw [hrest]
  exact hfix

/-- The loop, started anywhere, computes exactly `|schemas| + 1` passes'
worth of expansion (it stops as soon as a pass adds nothing, and passes
beyond the first stalled one change nothing). -/
theorem fixLoop_eq_iterate (schemas : JDict) (refs : Finset String) :
    fixLoop schemas refs = (expandOnce schemas)^[schemas.length + 1] refs := by
  rcases exists_stall schemas refs with ⟨k, hk, hstall⟩
  have hfix : expandOnce schemas ((expandOnce schemas)^[k + 1] refs) =
      (expandOnce schemas)^[k + 1] refs := by
    rw [Function.iterate_succ_apply']
    apply expandOnce_stall
    rw [Function.iterate_succ_apply'] at hstall
    exact hstall
  have main : ∀ m (r : Finset String),
      expandOnce schemas ((expandOnce schemas)^[m] r) = (expandOnce schemas)^[m] r →
      fixLoop schemas r = (expandOnce schemas)^[m] r := by
    intro m
    induction m with
    | zero =>
      intro r h
      rw [fixLoop]
      exact dif_pos h
    | succ m ih =>
      intro r h
      by_cases hr : expandOnce schemas r = r
      · rw [fixLoop, dif_pos hr, iterate_of_fixed schemas r hr]
      · rw [fixLoop, dif_neg hr]
        rw [Function.iterate_succ_apply] at h ⊢
        exact ih (expandOnce schemas r) h
  have h1 : fixLoop schemas refs = (expandOnce schemas)^[k + 1] refs :=
    main (k + 1) refs hfix
  have hle : k + 1 ≤ schemas.length + 1 :=
    Nat.succ_le_succ (hk.trans (keyFinset_card_le schemas))
  have hrest : (expandOnce schemas)^[schemas.length + 1] refs =
      (expandOnce schemas)^[k + 1] refs := by
    have : schemas.length + 1 = (schemas.length - k) + (k + 1) := by omega
    rw [this, Function.iterate_add_apply,
      iterate_of_fixed schemas _ hfix (schemas.length - k)]
  rw [h1, hrest]

/-- The loop's result is a fixed point of the pass function. -/
theorem expandOnce_fixLoop (schemas : JDict) (refs : Finset String) :
    expandOnce schemas (fixLoop schemas refs) = fixLoop schemas refs := by
  rw [fixLoop_eq_iterate]
  exact iterate_succ_len_fixed schemas refs

/-- The seed survives into the loop's result. -/
theorem subset_fixLoop (schemas : JDict) (refs : Finset String) :
    refs ⊆ fixLoop schemas refs := by
  rw [fixLoop_eq_iterate]
  exact subset_iterate schemas refs _

/-! ### Reference-string parsing lemmas -/

theorem splitChar_ne_nil (sep : Char) (l : List Char) : splitChar sep l ≠ [] := by
  cases l with
  | nil => simp [splitChar]
  | cons c cs =>
    unfold splitChar
    by_cases hc : c = sep
    · simp [hc]
    · simp only [hc, if_false]
      cases splitChar sep cs <;> simp

theorem splitChar_no_sep (sep : Char) (ys : List Char) (h : sep ∉ ys) :
    splitChar sep ys = [ys] := by
  induction ys with
  | nil => rfl
  | cons c cs ih =>
    have hc : ¬ c = sep := fun hcs => h (hcs ▸ List.mem_cons_self c cs)
    have hcs : sep ∉ cs := fun hm => h (List.mem_cons_of_mem c hm)
    unfold splitChar
    simp only [hc, if_false, ih hcs]

theorem splitChar_two_le (sep : Char) (l : List Char) (h : sep ∈ l) :
    2 ≤ (splitChar sep l).length := by
  induction l with
  | nil => cases h
  | cons c cs ih =>
    unfold splitChar
    by_cases hc : c = sep
    · simp only [hc, if_true, List.length_cons]
      have := splitChar_ne_nil sep cs
      have : 1 ≤ (splitChar sep cs).length := by
        cases hl : splitChar sep cs with
        | nil => exact absurd hl this
        | cons a as => simp
      omega
    · have hcs : sep ∈ cs := by
        rcases List.mem_cons.mp h with h1 | h1
        · exact absurd h1.symm hc
        · exact h1
      simp only [hc, if_false]
      cases hl : splitChar sep cs with
      | nil => exact absurd hl (splitChar_ne_nil sep cs)
      | cons p ps =>
        have := ih hcs
        rw [hl] at this
        simpa using this

theorem getLastD_splitChar_append (sep : Char) (xs ys : List Char) (h : sep ∉ ys) :
    (splitChar sep (xs ++ sep :: ys)).getLastD [] = ys := by
  induction xs with
  | nil =>
    simp only [List.nil_append]
    unfold splitChar
    simp only [if_pos rfl, splitChar_no_sep sep ys h]
    rfl
  | cons c cs ih =>
    rw [List.cons_append]
    unfold splitChar
    by_cases hc : c = sep
    · simp only [hc, if_true, List.getLastD_cons]
      exact ih
    · simp only [hc, if_false]
      cases hl : splitChar sep (cs ++ sep :: ys) with
      | nil => exact absurd hl (splitChar_ne_nil sep _)
      | cons p ps =>
        have h2 : 2 ≤ (splitChar sep (cs ++ sep :: ys)).length :=
          splitChar_two_le sep _ (by simp)
        rw [hl] at h2
        have hps : ps ≠ [] := by
          cases ps with
          | nil => simp at h2
          | cons a as => simp
        rw [hl] at ih
        rcases List.exists_cons_of_ne_nil hps with ⟨a, as, hps'⟩
        subst hps'
        simp only [List.getLastD_cons] at ih ⊢
        exact ih

theorem pyStartsWith_append (p n : String) : pyStartsWith (p ++ n) p = true := by
  unfold pyStartsWith
  rw [String.data_append]
  exact List.isPrefixOf_iff_prefix.mpr (List.prefix_append p.data n.data)

theorem refHead_data : refHead.data = "#/components/schemas".data ++ '/' :: [] := by
  decide

theorem refNameOf_append (n : String) (h : '/' ∉ n.data) :
    refNameOf (refHead ++ n) = n := by
  unfold refNameOf pySplit
  rw [String.data_append, refHead_data, List.append_assoc, List.singleton_append]
  have hlast : (splitChar '/' ("#/components/schemas".data ++ '/' :: n.data)).getLastD []
      = n.data := getLastD_splitChar_append '/' _ n.data h
  have hne := splitChar_ne_nil '/' ("#/components/schemas".data ++ '/' :: n.data)
  cases hL : (splitChar '/' ("#/components/schemas".data ++ '/' :: n.data)).getLast? with
  | none => exact absurd (List.getLast?_eq_none_iff.mp hL) hne
  | some x =>
    have hx : x = n.data := by
      rw [List.getLastD_eq_getLast?, hL] at hlast
      exact hlast
    rw [List.getLastD_eq_getLast?, List.getLast?_map, hL]
    subst hx
    cases n
    rfl

/-! ### Spec-side reachability

Written from the specification's words, independently of the walker: a name
`N` is reachable from an operation when a `$ref` string equal to
`#/components/schemas/N` occurs in the operation's nested objects and
arrays, or in the definition of an already-reachable schema. -/

/-- A value *mentions* schema name `n` when one of its nested objects (the
value itself, an object value, or an array element, to any depth) carries a
`$ref` key whose value is the string `"#/components/schemas/" ++ n`; `n` is
a plain schema name, i.e. contains no `/`. -/
inductive Mentions : Json → String → Prop where
  | here (kvs : JDict) (n : String) :
      JDict.get? kvs "$ref" = some (.str (refHead ++ n)) → '/' ∉ n.data →
      Mentions (.obj kvs) n
  | inObj (kvs : JDict) (kv : String × Json) (n : String) :
      kv ∈ kvs → Mentions kv.2 n → Mentions (.obj kvs) n
  | inArr (xs : List Json) (x : Json) (n : String) :
      x ∈ xs → Mentions x n → Mentions (.arr xs) n

/-- Schema name `n` is reachable from `root` by following `$ref` chains of
any depth: either `root` mentions it, or the definition of an
already-reachable schema mentions it. -/
inductive SpecReachable (schemas : JDict) (root : Json) : String → Prop where
  | seed (n : String) : Mentions root n → SpecReachable schemas root n
  | step (m n : String) (d : Json) :
      SpecReachable schemas root m → JDict.get? schemas m = some d →
      Mentions d n → SpecReachable schemas root n

theorem mem_extractRefsVals (kvs : JDict) (kv : String × Json) (x : String)
    (hkv : kv ∈ kvs) (hx : x ∈ extract_refs kv.2) : x ∈ extractRefsVals kvs := by
  induction kvs with
  | nil => cases hkv
  | cons q rest ih =>
    rw [extractRefsVals]
    rcases List.mem_cons.mp hkv with h1 | h1
    · subst h1
      exact Finset.mem_union_left _ hx
    · exact Finset.mem_union_right _ (ih h1)

theorem mem_extractRefsElems (xs : List Json) (v : Json) (x : String)
    (hv : v ∈ xs) (hx : x ∈ extract_refs v) : x ∈ extractRefsElems xs := by
  induction xs with
  | nil => cases hv
  | cons y rest ih =>
    rw [extractRefsElems]
    rcases List.mem_cons.mp hv with h1 | h1
    · subst h1
      exact Finset.mem_union_left _ hx
    · exact Finset.mem_union_right _ (ih h1)

/-- Every mentioned name is collected by the walker. -/
theorem mentions_mem_extract_refs (v : Json) (n : String) (h : Mentions v n) :
    n ∈ extract_refs v := by
  induction h with
  | here kvs n hget hslash =>
    rw [extract_refs, hget]
    apply Finset.mem_union_left
    show n ∈ if pyStartsWith (refHead ++ n) refHead = true
      then ({refNameOf (refHead ++ n)} : Finset String) else ∅
    rw [pyStartsWith_append, if_pos rfl, refNameOf_append n hslash]
    exact Finset.mem_singleton_self n
  | inObj kvs kv n hkv _ ih =>
    rw [extract_refs]
    exact Finset.mem_union_right _ (mem_extractRefsVals kvs kv n hkv ih)
  | inArr xs x n hx _ ih =>
    rw [extract_refs]
    exact mem_extractRefsElems xs x n hx ih

/-- Every spec-reachable name lands in the fixed point of the loop. -/
theorem specReachable_mem_fixLoop (schemas : JDict) (root : Json) (n : String)
    (h : SpecReachable schemas root n) : n ∈ fixLoop schemas (extract_refs root) := by
  induction h with
  | seed n hm =>
    exact subset_fixLoop schemas _ (mentions_mem_extract_refs root n hm)
  | step m n d _ hget hmen ih =>
    have hfix := expandOnce_fixLoop schemas (extract_refs root)
    rw [← hfix]
    apply Finset.mem_union_right
    apply Finset.mem_biUnion.mpr
    refine ⟨m, ih, ?_⟩
    unfold defnRefs
    rw [hget]
    exact mentions_mem_extract_refs d n hmen

/-! ### Evaluation helpers -/

theorem frc_eq_iterate (P : OpenAPISpecProcessor) (op : Json) :
    P.find_referenced_components op =
      (expandOnce P.schemasDict)^[P.schemasDict.length + 1] (extract_refs op) := by
  unfold OpenAPISpecProcessor.find_referenced_components
  exact fixLoop_eq_iterate P.schemasDict (extract_refs op)

theorem slice_notFound (P : OpenAPISpecProcessor) (path method : String)
    (h : lookupOp P path (pyLower method) = none) :
    extract_endpoint_slice P path method =
      .error ("Endpoint " ++ pyUpper (pyLower method) ++ " " ++ path ++
        " not found in spec") := by
  simp only [extract_endpoint_slice]
  rw [h]

theorem slice_found (P : OpenAPISpecProcessor) (path method : String) (op : Json)
    (h : lookupOp P path (pyLower method) = some op) :
    extract_endpoint_slice P path method =
      .ok (assembleSlice P path (pyLower method) op
        ((expandOnce P.schemasDict)^[P.schemasDict.length + 1] (extract_refs op))) := by
  simp only [extract_endpoint_slice]
  rw [h]
  show Except.ok (assembleSlice P path (pyLower method) op
    (P.find_referenced_components op)) = _
  rw [frc_eq_iterate]

/-! ### Dict and assembly lemmas -/

theorem option_or_map {α β : Type} (f : α → β) (o o' : Option α) :
    (o.or o').map f = (o.map f).or (o'.map f) := by
  cases o <;> rfl

theorem get?_append (d1 d2 : JDict) (k : String) :
    JDict.get? (d1 ++ d2) k = (JDict.get? d1 k).or (JDict.get? d2 k) := by
  unfold JDict.get?
  rw [List.find?_append, option_or_map]

theorem get?_keyEntries_some (ts : List String) (f : String → Option Json)
    (t : String) (v : Json) (ht : t ∈ ts) (hv : f t = some v) :
    JDict.get? (ts.filterMap (fun ty => (f ty).map (fun w => (ty, w)))) t = some v := by
  induction ts with
  | nil => cases ht
  | cons a as ih =>
    by_cases hat : a = t
    · subst hat
      simp [List.filterMap_cons, hv, JDict.get?, List.find?_cons]
    · have htas : t ∈ as := by
        rcases List.mem_cons.mp ht with h1 | h1
        · exact absurd h1.symm hat
        · exact h1
      cases hfa : f a with
      | none => simpa [List.filterMap_cons, hfa] using ih htas
      | some w =>
        simpa [List.filterMap_cons, hfa, JDict.get?, List.find?_cons, hat]
          using ih htas

theorem get?_keyEntries_none (ts : List String) (f : String → Option Json)
    (t : String) (ht : t ∉ ts) :
    JDict.get? (ts.filterMap (fun ty => (f ty).map (fun w => (ty, w)))) t = none := by
  induction ts with
  | nil => rfl
  | cons a as ih =>
    have hat : a ≠ t := fun he => ht (he ▸ List.mem_cons_self a as)
    have htas : t ∉ as := fun hm => ht (List.mem_cons_of_mem a hm)
    cases hfa : f a with
    | none => simpa [List.filterMap_cons, hfa] using ih htas
    | some w =>
      simpa [List.filterMap_cons, hfa, JDict.get?, List.find?_cons, hat]
        using ih htas

theorem get?_extract_components_type (comps : JDict) (names : Finset String)
    (t : String) (v : Json) (ht : t ∈ compTypes)
    (hv : JDict.get? comps t = some v) :
    JDict.get? (extract_components comps names) t = some v := by
  have hts : t ≠ "schemas" := by
    rintro rfl
    revert ht
    decide
  unfold extract_components
  rw [get?_append]
  have hbase : JDict.get?
      (if names ≠ ∅ then
        match JDict.get? comps "schemas" with
        | some schemasVal =>
          [("schemas",
            Json.obj ((schemasVal.asDict).filter (fun kv => decide (kv.1 ∈ names))))]
        | none => []
       else []) t = none := by
    by_cases hn : names ≠ ∅
    · rw [if_pos hn]
      cases JDict.get? comps "schemas" with
      | none => rfl
      | some sv =>
        unfold JDict.get?
        rw [List.find?_cons_of_neg]
        · rfl
        · simp [Ne.symm hts]
    · rw [if_neg hn]
      rfl
  rw [hbase, Option.none_or]
  exact get?_keyEntries_some compTypes (fun ty => JDict.get? comps ty) t v ht hv

theorem get?_extract_components_schemas (comps : JDict) (names : Finset String)
    (sv : Json) (hn : names ≠ ∅) (hsch : JDict.get? comps "schemas" = some sv) :
    JDict.get? (extract_components comps names) "schemas" =
      some (.obj ((sv.asDict).filter (fun kv => decide (kv.1 ∈ names)))) := by
  unfold extract_components
  rw [get?_append, if_pos hn, hsch]
  rfl

theorem get?_extract_components_no_schemas (comps : JDict) (names : Finset String)
    (hsch : JDict.get? comps "schemas" = none) :
    JDict.get? (extract_components comps names) "schemas" = none := by
  unfold extract_components
  rw [get?_append]
  have hbase : JDict.get?
      (if names ≠ ∅ then
        match JDict.get? comps "schemas" with
        | some schemasVal =>
          [("schemas",
            Json.obj ((schemasVal.asDict).filter (fun kv => decide (kv.1 ∈ names))))]
        | none => []
       else []) "schemas" = none := by
    by_cases hn : names ≠ ∅
    · rw [if_pos hn, hsch]
      rfl
    · rw [if_neg hn]
      rfl
  rw [hbase, Option.none_or]
  exact get?_keyEntries_none compTypes (fun ty => JDict.get? comps ty) "schemas" (by decide)

theorem assembleSlice_components (P : OpenAPISpecProcessor) (path m : String)
    (op : Json) (refs : Finset String) :
    (assembleSlice P path m op refs).lookup "components" =
      some (if refs = ∅ then Json.obj []
            else .obj (extract_components P.componentsDict refs)) := by
  rfl

theorem keys_filter_toFinset (src : JDict) (names : Finset String) :
    ((src.filter (fun kv => decide (kv.1 ∈ names))).map Prod.fst).toFinset =
      names ∩ keyFinset src := by
  ext x
  rw [Finset.mem_inter, mem_keyFinset, List.mem_toFinset, List.mem_map]
  constructor
  · rintro ⟨kv, hkv, hx⟩
    rcases List.mem_filter.mp hkv with ⟨hmem, hname⟩
    subst hx
    exact ⟨of_decide_eq_true hname, kv, hmem, rfl⟩
  · rintro ⟨hx, kv, hkv, hkx⟩
    refine ⟨kv, List.mem_filter.mpr ⟨hkv, ?_⟩, hkx⟩
    rw [hkx]
    exact decide_eq_true hx

/-! ### Endpoint-listing and tool-layer lemmas -/

theorem get?_of_mem_nodup (d : JDict) (kv : String × Json)
    (hnd : (d.map Prod.fst).Nodup) (h : kv ∈ d) :
    JDict.get? d kv.1 = some kv.2 := by
  induction d with
  | nil => cases h
  | cons q rest ih =>
    simp only [List.map_cons, List.nodup_cons] at hnd
    rcases List.mem_cons.mp h with h1 | h1
    · subst h1
      simp [JDict.get?, List.find?_cons]
    · have hq : ¬ q.1 = kv.1 := fun he =>
        hnd.1 (he ▸ List.mem_map_of_mem Prod.fst h1)
      simpa [JDict.get?, List.find?_cons, hq] using ih hnd.2 h1

/-- The record list as the specification words it: for every path, for
every method key under it other than the reserved three, one record carrying
the path, the upper-cased method, and the operation's `summary` and
`operationId` (empty string when absent), in document order. -/
def specListEndpoints (P : OpenAPISpecProcessor) : List EndpointRec :=
  P.pathsDict.flatMap (fun pm =>
    ((pm.2.asDict).filter (fun kv => decide (kv.1 ∉ reservedKeys))).map (fun kv =>
      ⟨pm.1, pyUpper kv.1, JDict.getD kv.2.asDict "summary" (.str ""),
        JDict.getD kv.2.asDict "operationId" (.str "")⟩))

theorem listEndpoints_inner (p : String) (full : JDict) : ∀ methods : JDict,
    (∀ kv ∈ methods, JDict.get? full kv.1 = some kv.2) →
    ((methods.map Prod.fst).filterMap (fun m =>
      if m ∈ reservedKeys then none
      else
        some (EndpointRec.mk p (pyUpper m)
          (JDict.getD (JDict.getD full m .null).asDict "summary" (.str ""))
          (JDict.getD (JDict.getD full m .null).asDict "operationId" (.str "")))) =
    (methods.filter (fun kv => decide (kv.1 ∉ reservedKeys))).map (fun kv =>
      EndpointRec.mk p (pyUpper kv.1)
        (JDict.getD kv.2.asDict "summary" (.str ""))
        (JDict.getD kv.2.asDict "operationId" (.str "")))) := by
  intro methods
  induction methods with
  | nil => intro _; rfl
  | cons kv rest ih =>
    intro hget
    have hkv : JDict.getD full kv.1 .null = kv.2 := by
      unfold JDict.getD
      rw [hget kv (List.mem_cons_self kv rest)]
      rfl
    have hrest := ih (fun q hq => hget q (List.mem_cons_of_mem kv hq))
    by_cases hres : kv.1 ∈ reservedKeys
    · rw [List.map_cons, List.filterMap_cons_none, List.filter_cons_of_neg, hrest]
      · simp [hres]
      · rw [if_pos hres]
    · have hhead : (if kv.1 ∈ reservedKeys then (none : Option EndpointRec)
          else some (EndpointRec.mk p (pyUpper kv.1)
            (JDict.getD (JDict.getD full kv.1 .null).asDict "summary" (.str ""))
            (JDict.getD (JDict.getD full kv.1 .null).asDict "operationId" (.str "")))) =
          some (EndpointRec.mk p (pyUpper kv.1)
            (JDict.getD kv.2.asDict "summary" (.str ""))
            (JDict.getD kv.2.asDict "operationId" (.str ""))) := by
        rw [if_neg hres, hkv]
      have hres' : (decide (kv.1 ∉ reservedKeys)) = true := by simp [hres]
      simp only [List.map_cons, List.filterMap_cons, List.filter_cons, hhead, hres',
        if_true, hrest]

theorem tool_preserves_state (st : ServerState) (path method fmt : String) :
    (extract_endpoint_slice_tool st path method fmt).2 = st := by
  unfold extract_endpoint_slice_tool
  split
  · rfl
  · split
    · rfl
    · split
      · rfl
      · rfl

/-! ### Concrete example documents -/

/-- An object `{"$ref": "#/components/schemas/<n>"}`. -/
def refObj (n : String) : Json := .obj [("$ref", .str (refHead ++ n))]

/-- The `GET /pets` operation of the running example. -/
def petOp : Json :=
  .obj [("responses", .obj [("200", .obj [("schema", refObj "Pet")])])]

/-- A document in the spirit of the specification's concrete scenario:
the operation references `Pet`, whose definition references `Owner`; a
`responses` component category is also present. -/
def petDoc : JDict :=
  [("openapi", .str "3.0.0"),
   ("info", .obj [("title", .str "Pets")]),
   ("paths", .obj [("/pets", .obj [("get", petOp)])]),
   ("components", .obj
     [("schemas", .obj
        [("Pet", .obj [("properties", .obj [("owner", refObj "Owner")])]),
         ("Owner", .obj [])]),
      ("responses", .obj [("NotFound", .obj [])])])]

/-- Engine holding `petDoc`. -/
def petProc : OpenAPISpecProcessor := ⟨petDoc⟩

/-- The slice the engine produces for `GET /pets` of `petDoc`. -/
def petSlice : Json :=
  .obj [
    ("openapi", .str "3.0.0"),
    ("info", .obj [("title", .str "Pets")]),
    ("servers", .arr []),
    ("paths", .obj [("/pets", .obj [("get", petOp)])]),
    ("components", .obj [
      ("schemas", .obj [
        ("Pet", .obj [("properties", .obj [("owner", refObj "Owner")])]),
        ("Owner", .obj [])]),
      ("responses", .obj [("NotFound", .obj [])])])]

/-- Mutually recursive schemas `A ↔ B`. -/
def abDoc : JDict :=
  [("paths", .obj [("/a", .obj [("get", refObj "A")])]),
   ("components", .obj [("schemas", .obj [("A", refObj "B"), ("B", refObj "A")])])]

/-- Engine holding `abDoc`. -/
def abProc : OpenAPISpecProcessor := ⟨abDoc⟩

/-- An operation with no references at all. -/
def noRefOp : Json :=
  .obj [("responses", .obj [("200", .obj [("description", .str "ok")])])]

/-- A document whose single operation references nothing, while the source
carries non-schema component categories. -/
def noRefDoc : JDict :=
  [("paths", .obj [("/a", .obj [("get", noRefOp)])]),
   ("components", .obj
     [("responses", .obj [("R", .obj [])]),
      ("securitySchemes", .obj [("S", .obj [])])])]

/-- Engine holding `noRefDoc`. -/
def noRefProc : OpenAPISpecProcessor := ⟨noRefDoc⟩

/-- A document whose operation's only reference dangles (`Ghost` is not a
schema key), while `schemas` holds an unrelated `Pet`. -/
def ghostDoc : JDict :=
  [("paths", .obj [("/g", .obj [("get", refObj "Ghost")])]),
   ("components", .obj [("schemas", .obj [("Pet", .obj [])])])]

/-- Engine holding `ghostDoc`. -/
def ghostProc : OpenAPISpecProcessor := ⟨ghostDoc⟩

/-- One path carrying `get`, `post` and a path-level `parameters` key. -/
def lepDoc : JDict :=
  [("paths", .obj [("/x", .obj
     [("get", .obj [("summary", .str "G"), ("operationId", .str "gid")]),
      ("post", .obj []),
      ("parameters", .arr [])])])]

/-- Engine holding `lepDoc`. -/
def lepProc : OpenAPISpecProcessor := ⟨lepDoc⟩

/-! ### The claims -/

/-- C1: Closure completeness — for every loaded document and operation,
every schema name reachable from the operation by following `$ref` strings
of the form `#/components/schemas/N` through nested objects and arrays, to
any depth including through the definitions of already-reached schemas, is
in the set returned by `_find_referenced_components` on that operation. -/
theorem C1_closure_completeness (P : OpenAPISpecProcessor) (op : Json)
    (n : String) (h : SpecReachable P.schemasDict op n) :
    n ∈ P.find_referenced_components op :=
  specReachable_mem_fixLoop P.schemasDict op n h

/-- Witness for C1: in `petDoc`, `Owner` is spec-reachable from the
`GET /pets` operation (through `Pet`) and is in the computed set. -/
theorem C1_closure_completeness_witness :
    SpecReachable petProc.schemasDict petOp "Owner" ∧
      "Owner" ∈ petProc.find_referenced_components petOp := by
  have hPet : Mentions petOp "Pet" := by
    apply Mentions.inObj _ ("responses", .obj [("200", .obj [("schema", refObj "Pet")])])
    · exact List.mem_cons_self _ _
    · apply Mentions.inObj _ ("200", .obj [("schema", refObj "Pet")])
      · exact List.mem_cons_self _ _
      · apply Mentions.inObj _ ("schema", refObj "Pet")
        · exact List.mem_cons_self _ _
        · exact Mentions.here _ "Pet" rfl (by decide)
  have hOwner : Mentions (Json.obj [("properties", .obj [("owner", refObj "Owner")])])
      "Owner" := by
    apply Mentions.inObj _ ("properties", .obj [("owner", refObj "Owner")])
    · exact List.mem_cons_self _ _
    · apply Mentions.inObj _ ("owner", refObj "Owner")
      · exact List.mem_cons_self _ _
      · exact Mentions.here _ "Owner" rfl (by decide)
  have hreach : SpecReachable petProc.schemasDict petOp "Owner" :=
    SpecReachable.step "Pet" "Owner"
      (.obj [("properties", .obj [("owner", refObj "Owner")])])
      (SpecReachable.seed "Pet" hPet) rfl hOwner
  exact ⟨hreach, C1_closure_completeness petProc petOp "Owner" hreach⟩

/-- C2 counterexample: the claim fails when the operation's schema closure
is empty.  In `noRefDoc` the source `components` carries `responses` (and
`securitySchemes`), the `GET /a` operation references no schema, and the
produced slice's `components` is the empty mapping — `responses` does not
appear at all (`extract_endpoint_slice` only calls `_extract_components`
under `if referenced_schemas:`). -/
theorem C2_counterexample :
    extract_endpoint_slice noRefProc "/a" "get" =
      .ok (.obj [
        ("openapi", .str "3.0.0"),
        ("info", .obj []),
        ("servers", .arr []),
        ("paths", .obj [("/a", .obj [("get", noRefOp)])]),
        ("components", .obj [])]) ∧
    JDict.get? noRefProc.componentsDict "responses" = some (.obj [("R", .obj [])]) ∧
    Json.lookup (.obj []) "responses" = none := by
  refine ⟨?_, rfl, rfl⟩
  rw [slice_found noRefProc "/a" "get" noRefOp rfl]
  rfl

/-- C2 (amended): whenever the operation's schema reference closure is
non-empty, each of the eight non-schema component categories present in the
source document's components appears entire and unfiltered in the output
slice's components.  (When the closure is empty the output `components` is
the empty mapping — see the counterexample.) -/
theorem C2_nonschema_categories_copied (P : OpenAPISpecProcessor)
    (path method : String) (op sl : Json) (t : String) (v : Json)
    (hop : lookupOp P path (pyLower method) = some op)
    (hsl : extract_endpoint_slice P path method = .ok sl)
    (hne : P.find_referenced_components op ≠ ∅)
    (ht : t ∈ compTypes)
    (hv : JDict.get? P.componentsDict t = some v) :
    (sl.lookup "components").bind (fun c => Json.lookup c t) = some v := by
  have h1 := slice_found P path method op hop
  rw [← frc_eq_iterate] at h1
  rw [hsl] at h1
  have hsl' : sl = assembleSlice P path (pyLower method) op
      (P.find_referenced_components op) := by
    injection h1
  subst hsl'
  rw [assembleSlice_components, if_neg hne]
  show Json.lookup (.obj (extract_components P.componentsDict
    (P.find_referenced_components op))) t = some v
  unfold Json.lookup Json.asDict
  exact get?_extract_components_type P.componentsDict
    (P.find_referenced_components op) t v ht hv

/-- Witness for the amended C2: for `GET /pets` of `petDoc` (closure
`{Pet, Owner}`, non-empty) the whole `responses` category appears in the
slice's components. -/
theorem C2_nonschema_categories_copied_witness :
    lookupOp petProc "/pets" (pyLower "get") = some petOp ∧
    extract_endpoint_slice petProc "/pets" "get" = .ok petSlice ∧
    petProc.find_referenced_components petOp ≠ ∅ ∧
    "responses" ∈ compTypes ∧
    JDict.get? petProc.componentsDict "responses" = some (.obj [("NotFound", .obj [])]) ∧
    (petSlice.lookup "components").bind (fun c => Json.lookup c "responses") =
      some (.obj [("NotFound", .obj [])]) := by
  have hop : lookupOp petProc "/pets" (pyLower "get") = some petOp := rfl
  have hsl : extract_endpoint_slice petProc "/pets" "get" = .ok petSlice := by
    rw [slice_found petProc "/pets" "get" petOp rfl]
    rfl
  have hne : petProc.find_referenced_components petOp ≠ ∅ := by
    rw [frc_eq_iterate]
    decide
  have ht : "responses" ∈ compTypes := by decide
  have hv : JDict.get? petProc.componentsDict "responses" =
      some (.obj [("NotFound", .obj [])]) := rfl
  exact ⟨hop, hsl, hne, ht, hv,
    C2_nonschema_categories_copied petProc "/pets" "get" petOp petSlice
      "responses" (.obj [("NotFound", .obj [])]) hop hsl hne ht hv⟩

/-- C3: Closure minimality for schemas — every schema name that appears as
a key of the output slice's `components.schemas` is in the
reference-discovery closure of the requested operation. -/
theorem C3_closure_minimality (P : OpenAPISpecProcessor) (path method : String)
    (op sl cJ : Json) (entries : JDict) (kv : String × Json)
    (hop : lookupOp P path (pyLower method) = some op)
    (hsl : extract_endpoint_slice P path method = .ok sl)
    (hc : sl.lookup "components" = some cJ)
    (hs : cJ.lookup "schemas" = some (.obj entries))
    (hkv : kv ∈ entries) :
    kv.1 ∈ P.find_referenced_components op := by
  have h1 := slice_found P path method op hop
  rw [← frc_eq_iterate] at h1
  rw [hsl] at h1
  have hsl' : sl = assembleSlice P path (pyLower method) op
      (P.find_referenced_components op) := by
    injection h1
  subst hsl'
  rw [assembleSlice_components] at hc
  by_cases hne : P.find_referenced_components op = ∅
  · rw [if_pos hne] at hc
    have hcJ : cJ = Json.obj [] := (Option.some.inj hc).symm
    subst hcJ
    cases hs
  · rw [if_neg hne] at hc
    have hcJ : cJ = .obj (extract_components P.componentsDict
        (P.find_referenced_components op)) := (Option.some.inj hc).symm
    subst hcJ
    unfold Json.lookup Json.asDict at hs
    cases hsch : JDict.get? P.componentsDict "schemas" with
    | none =>
      rw [get?_extract_components_no_schemas _ _ hsch] at hs
      cases hs
    | some sv =>
      rw [get?_extract_components_schemas _ _ sv hne hsch] at hs
      have hent : entries = (sv.asDict).filter
          (fun kv => decide (kv.1 ∈ P.find_referenced_components op)) := by
        have := Option.some.inj hs
        injection this.symm
      subst hent
      exact of_decide_eq_true (List.mem_filter.mp hkv).2

/-- Witness for C3: in the `GET /pets` slice of `petDoc`, the schema entry
`Pet` is a member of the operation's closure. -/
theorem C3_closure_minimality_witness :
    lookupOp petProc "/pets" (pyLower "get") = some petOp ∧
    extract_endpoint_slice petProc "/pets" "get" = .ok petSlice ∧
    petSlice.lookup "components" = some (.obj [
      ("schemas", .obj [
        ("Pet", .obj [("properties", .obj [("owner", refObj "Owner")])]),
        ("Owner", .obj [])]),
      ("responses", .obj [("NotFound", .obj [])])]) ∧
    ("Pet", Json.obj [("properties", .obj [("owner", refObj "Owner")])]).1 ∈
      petProc.find_referenced_components petOp := by
  have hop : lookupOp petProc "/pets" (pyLower "get") = some petOp := rfl
  have hsl : extract_endpoint_slice petProc "/pets" "get" = .ok petSlice := by
    rw [slice_found petProc "/pets" "get" petOp rfl]
    rfl
  have hc : petSlice.lookup "components" = some (.obj [
      ("schemas", .obj [
        ("Pet", .obj [("properties", .obj [("owner", refObj "Owner")])]),
        ("Owner", .obj [])]),
      ("responses", .obj [("NotFound", .obj [])])]) := rfl
  have hs : Json.lookup (.obj [
      ("schemas", .obj [
        ("Pet", .obj [("properties", .obj [("owner", refObj "Owner")])]),
        ("Owner", .obj [])]),
      ("responses", .obj [("NotFound", .obj [])])]) "schemas" = some (.obj [
        ("Pet", .obj [("properties", .obj [("owner", refObj "Owner")])]),
        ("Owner", .obj [])]) := rfl
  exact ⟨hop, hsl, hc,
    C3_closure_minimality petProc "/pets" "get" petOp petSlice _ _
      ("Pet", Json.obj [("properties", .obj [("owner", refObj "Owner")])])
      hop hsl hc hs (List.mem_cons_self _ _)⟩

/-- C4: Cycle termination — reference discovery terminates on every finite
document: the fixed-point loop's result is exactly what `|schemas| + 1`
passes compute, a further pass past that point changes nothing (so the loop
completes in at most `|schemas| + 1` passes), and on the mutually recursive
pair `A ↔ B` the result is exactly the set `{A, B}`, each name appearing
once (the set has cardinality two). -/
theorem C4_cycle_termination :
    (∀ (P : OpenAPISpecProcessor) (op : Json),
      P.find_referenced_components op =
        (expandOnce P.schemasDict)^[P.schemasDict.length + 1] (extract_refs op) ∧
      expandOnce P.schemasDict (P.find_referenced_components op) =
        P.find_referenced_components op) ∧
    abProc.find_referenced_components (refObj "A") = {"A", "B"} ∧
    ({"A", "B"} : Finset String).card = 2 := by
  refine ⟨fun P op => ⟨frc_eq_iterate P op, ?_⟩, ?_, by decide⟩
  · unfold OpenAPISpecProcessor.find_referenced_components
    exact expandOnce_fixLoop _ _
  · rw [frc_eq_iterate]
    decide

/-- C5: Not-found error with no mutation — with a document loaded, asking
for a path absent from `paths`, or a path whose lower-cased method is
absent, makes the engine raise `ValueError` with a message naming the
method and path; the tool surfaces it as an `Error:` string and returns
with the server state (the held processor) unchanged. -/
theorem C5_not_found_no_mutation (st : ServerState) (P : OpenAPISpecProcessor)
    (path method fmt : String)
    (hP : st.current_processor = some P)
    (hfmt : pyLower fmt = "yaml" ∨ pyLower fmt = "json")
    (hnf : lookupOp P path (pyLower method) = none) :
    extract_endpoint_slice P path method =
      .error ("Endpoint " ++ pyUpper (pyLower method) ++ " " ++ path ++
        " not found in spec") ∧
    extract_endpoint_slice_tool st path method fmt =
      ("Error: " ++ ("Endpoint " ++ pyUpper (pyLower method) ++ " " ++ path ++
        " not found in spec"), st) := by
  refine ⟨slice_notFound P path method hnf, ?_⟩
  have hcond : ¬(pyLower fmt ≠ "yaml" ∧ pyLower fmt ≠ "json") := by
    rcases hfmt with h | h
    · exact fun hc => hc.1 h
    · exact fun hc => hc.2 h
  simp only [extract_endpoint_slice_tool, hP]
  rw [if_neg hcond, slice_notFound P path method hnf]

/-- Witness for C5: requesting `GET /nope` against `petDoc` through the
tool yields the not-found error and the unchanged state. -/
theorem C5_not_found_no_mutation_witness :
    (ServerState.mk (some petProc)).current_processor = some petProc ∧
    (pyLower "yaml" = "yaml" ∨ pyLower "yaml" = "json") ∧
    lookupOp petProc "/nope" (pyLower "get") = none ∧
    (extract_endpoint_slice petProc "/nope" "get" =
      .error ("Endpoint " ++ pyUpper (pyLower "get") ++ " " ++ "/nope" ++
        " not found in spec") ∧
    extract_endpoint_slice_tool (ServerState.mk (some petProc)) "/nope" "get" "yaml" =
      ("Error: " ++ ("Endpoint " ++ pyUpper (pyLower "get") ++ " " ++ "/nope" ++
        " not found in spec"), ServerState.mk (some petProc))) :=
  ⟨rfl, Or.inl rfl, rfl,
    C5_not_found_no_mutation (ServerState.mk (some petProc)) petProc
      "/nope" "get" "yaml" rfl (Or.inl rfl) rfl⟩

/-- C6: Case-insensitive method match — two method strings with the same
lower-casing (any two casings of the same method) produce identical
results, failures included. -/
theorem C6_method_case_insensitive (P : OpenAPISpecProcessor)
    (path m1 m2 : String) (h : pyLower m1 = pyLower m2) :
    extract_endpoint_slice P path m1 = extract_endpoint_slice P path m2 := by
  simp only [extract_endpoint_slice, h]

/-- Witness for C6: `"get"` and `"GET"` have the same lower-casing and
yield identical slices on `petDoc`. -/
theorem C6_method_case_insensitive_witness :
    pyLower "get" = pyLower "GET" ∧
    extract_endpoint_slice petProc "/pets" "get" =
      extract_endpoint_slice petProc "/pets" "GET" :=
  ⟨rfl, C6_method_case_insensitive petProc "/pets" "get" "GET" rfl⟩

/-- C7: Endpoint listing — when each path item has distinct keys (as any
parsed mapping does), `list_endpoints` returns exactly one record per
(path, method-key) pair whose key is not one of the reserved three
(`parameters`, `summary`, `description`), carrying the path, upper-cased
method, and the operation's `summary` and `operationId` with empty-string
defaults, in document order; and the concrete one-path document with `get`,
`post` and a sibling `parameters` key yields exactly two records. -/
theorem C7_endpoint_listing (P : OpenAPISpecProcessor)
    (hnd : ∀ pm ∈ P.pathsDict, ((pm.2.asDict).map Prod.fst).Nodup) :
    list_endpoints P = specListEndpoints P ∧
    list_endpoints lepProc =
      [EndpointRec.mk "/x" "GET" (.str "G") (.str "gid"),
       EndpointRec.mk "/x" "POST" (.str "") (.str "")] := by
  constructor
  · unfold list_endpoints specListEndpoints
    have main : ∀ L : JDict, (∀ pm ∈ L, ((pm.2.asDict).map Prod.fst).Nodup) →
        (L.flatMap (fun pm =>
          ((pm.2.asDict).map Prod.fst).filterMap (fun m =>
            if m ∈ reservedKeys then none
            else
              some (EndpointRec.mk pm.1 (pyUpper m)
                (JDict.getD (JDict.getD pm.2.asDict m .null).asDict "summary" (.str ""))
                (JDict.getD (JDict.getD pm.2.asDict m .null).asDict "operationId"
                  (.str ""))))) =
        L.flatMap (fun pm =>
          ((pm.2.asDict).filter (fun kv => decide (kv.1 ∉ reservedKeys))).map (fun kv =>
            EndpointRec.mk pm.1 (pyUpper kv.1)
              (JDict.getD kv.2.asDict "summary" (.str ""))
              (JDict.getD kv.2.asDict "operationId" (.str ""))))) := by
      intro L hL
      induction L with
      | nil => rfl
      | cons pm rest ih =>
        rw [List.flatMap_cons, List.flatMap_cons,
          ih (fun q hq => hL q (List.mem_cons_of_mem pm hq)),
          listEndpoints_inner pm.1 pm.2.asDict pm.2.asDict
            (fun kv hkv =>
              get?_of_mem_nodup pm.2.asDict kv (hL pm (List.mem_cons_self pm rest)) hkv)]
    exact main P.pathsDict hnd
  · rfl

/-- Witness for C7: the path items of `lepDoc` have distinct keys, so both
the general characterisation and the concrete two-record scenario hold. -/
theorem C7_endpoint_listing_witness :
    (∀ pm ∈ lepProc.pathsDict, ((pm.2.asDict).map Prod.fst).Nodup) ∧
    (list_endpoints lepProc = specListEndpoints lepProc ∧
     list_endpoints lepProc =
       [EndpointRec.mk "/x" "GET" (.str "G") (.str "gid"),
        EndpointRec.mk "/x" "POST" (.str "") (.str "")]) :=
  ⟨by decide, C7_endpoint_listing lepProc (by decide)⟩

/-- C8: Dangling references — a `$ref` name collected from the operation
that is not a key of `components.schemas` is still in the returned set, and
it contributes no further expansion: inserting such a name into any working
set makes a pass produce exactly that name inserted into the pass's result
on the set without it. -/
theorem C8_dangling_refs (P : OpenAPISpecProcessor) (op : Json) (n : String)
    (refs : Finset String)
    (hseed : n ∈ extract_refs op)
    (hdangling : JDict.get? P.schemasDict n = none) :
    n ∈ P.find_referenced_components op ∧
    expandOnce P.schemasDict (insert n refs) =
      insert n (expandOnce P.schemasDict refs) := by
  constructor
  · exact subset_fixLoop P.schemasDict (extract_refs op) hseed
  · unfold expandOnce
    rw [Finset.biUnion_insert]
    have hd : defnRefs P.schemasDict n = ∅ := by
      unfold defnRefs
      rw [hdangling]
    rw [hd, Finset.empty_union, Finset.insert_union]

/-- Witness for C8: in `abDoc` (schemas `A`, `B`), the dangling `Ghost`
reference is kept in the result and expands nothing. -/
theorem C8_dangling_refs_witness :
    "Ghost" ∈ extract_refs (refObj "Ghost") ∧
    JDict.get? abProc.schemasDict "Ghost" = none ∧
    ("Ghost" ∈ abProc.find_referenced_components (refObj "Ghost") ∧
     expandOnce abProc.schemasDict (insert "Ghost" {"A"}) =
       insert "Ghost" (expandOnce abProc.schemasDict {"A"})) :=
  ⟨by decide, rfl,
    C8_dangling_refs abProc (refObj "Ghost") "Ghost" {"A"} (by decide) rfl⟩

/-- C9: Idempotence of extraction — the tool neither mutates the held
state nor depends on anything but it, so two consecutive
`extract_endpoint_slice` calls with identical arguments return structurally
identical results, and the state after the first call is the input state. -/
theorem C9_extraction_idempotent (st : ServerState) (path method fmt : String)
    (out1 out2 : String) (st1 st2 : ServerState)
    (h1 : extract_endpoint_slice_tool st path method fmt = (out1, st1))
    (h2 : extract_endpoint_slice_tool st1 path method fmt = (out2, st2)) :
    out1 = out2 ∧ st2 = st1 ∧ st1 = st := by
  have hs1 : st1 = st := by
    have hp := tool_preserves_state st path method fmt
    rw [h1] at hp
    exact hp
  subst hs1
  rw [h1] at h2
  have hpair := Prod.mk.injEq out1 st1 out2 st2 ▸ h2
  exact ⟨hpair.1, hpair.2.symm, rfl⟩

/-- Witness for C9: two consecutive slice extractions of `GET /pets` from
`petDoc` through the tool agree, and the state is untouched. -/
theorem C9_extraction_idempotent_witness :
    extract_endpoint_slice_tool (ServerState.mk (some petProc)) "/pets" "get" "yaml" =
      ((extract_endpoint_slice_tool (ServerState.mk (some petProc))
          "/pets" "get" "yaml").1,
       (extract_endpoint_slice_tool (ServerState.mk (some petProc))
          "/pets" "get" "yaml").2) ∧
    ((extract_endpoint_slice_tool (ServerState.mk (some petProc))
        "/pets" "get" "yaml").1 =
      (extract_endpoint_slice_tool
        (extract_endpoint_slice_tool (ServerState.mk (some petProc))
          "/pets" "get" "yaml").2 "/pets" "get" "yaml").1) := by
  have h1 : extract_endpoint_slice_tool (ServerState.mk (some petProc))
      "/pets" "get" "yaml" =
      ((extract_endpoint_slice_tool (ServerState.mk (some petProc))
          "/pets" "get" "yaml").1,
       (extract_endpoint_slice_tool (ServerState.mk (some petProc))
          "/pets" "get" "yaml").2) := rfl
  have h2 : extract_endpoint_slice_tool
      (extract_endpoint_slice_tool (ServerState.mk (some petProc))
        "/pets" "get" "yaml").2 "/pets" "get" "yaml" =
      ((extract_endpoint_slice_tool
          (extract_endpoint_slice_tool (ServerState.mk (some petProc))
            "/pets" "get" "yaml").2 "/pets" "get" "yaml").1,
       (extract_endpoint_slice_tool
          (extract_endpoint_slice_tool (ServerState.mk (some petProc))
            "/pets" "get" "yaml").2 "/pets" "get" "yaml").2) := rfl
  exact ⟨h1,
    (C9_extraction_idempotent (ServerState.mk (some petProc)) "/pets" "get" "yaml"
      _ _ _ _ h1 h2).1⟩

/-- C10: the key set of the slice's `components.schemas`, when that mapping
is present, is exactly the reference-discovery closure intersected with the
key set of the source `components.schemas`; dangling closure names yield no
entry, and if all closure names dangle the mapping is present but empty. -/
theorem C10_schema_key_set (P : OpenAPISpecProcessor) (path method : String)
    (op sl cJ : Json) (entries : JDict)
    (hop : lookupOp P path (pyLower method) = some op)
    (hsl : extract_endpoint_slice P path method = .ok sl)
    (hc : sl.lookup "components" = some cJ)
    (hs : cJ.lookup "schemas" = some (.obj entries)) :
    (entries.map Prod.fst).toFinset =
      P.find_referenced_components op ∩ keyFinset P.schemasDict := by
  have h1 := slice_found P path method op hop
  rw [← frc_eq_iterate] at h1
  rw [hsl] at h1
  have hsl' : sl = assembleSlice P path (pyLower method) op
      (P.find_referenced_components op) := by
    injection h1
  subst hsl'
  rw [assembleSlice_components] at hc
  by_cases hne : P.find_referenced_components op = ∅
  · rw [if_pos hne] at hc
    have hcJ : cJ = Json.obj [] := (Option.some.inj hc).symm
    subst hcJ
    cases hs
  · rw [if_neg hne] at hc
    have hcJ : cJ = .obj (extract_components P.componentsDict
        (P.find_referenced_components op)) := (Option.some.inj hc).symm
    subst hcJ
    unfold Json.lookup Json.asDict at hs
    cases hsch : JDict.get? P.componentsDict "schemas" with
    | none =>
      rw [get?_extract_components_no_schemas _ _ hsch] at hs
      cases hs
    | some sv =>
      rw [get?_extract_components_schemas _ _ sv hne hsch] at hs
      have hent : entries = (sv.asDict).filter
          (fun kv => decide (kv.1 ∈ P.find_referenced_components op)) := by
        have := Option.some.inj hs
        injection this.symm
      subst hent
      have hschemas : P.schemasDict = sv.asDict := by
        unfold OpenAPISpecProcessor.schemasDict JDict.getD
        rw [hsch]
        rfl
      rw [hschemas]
      exact keys_filter_toFinset sv.asDict (P.find_referenced_components op)

/-- Witness for C10 at the all-dangling document: the closure is `{Ghost}`
(non-empty), every closure name dangles, and the slice's
`components.schemas` is the present-but-empty mapping, whose key set is the
empty intersection. -/
theorem C10_schema_key_set_witness :
    lookupOp ghostProc "/g" (pyLower "get") = some (refObj "Ghost") ∧
    extract_endpoint_slice ghostProc "/g" "get" = .ok (.obj [
      ("openapi", .str "3.0.0"),
      ("info", .obj []),
      ("servers", .arr []),
      ("paths", .obj [("/g", .obj [("get", refObj "Ghost")])]),
      ("components", .obj [("schemas", .obj [])])]) ∧
    (([] : JDict).map Prod.fst).toFinset =
      ghostProc.find_referenced_components (refObj "Ghost") ∩
        keyFinset ghostProc.schemasDict := by
  have hop : lookupOp ghostProc "/g" (pyLower "get") = some (refObj "Ghost") := rfl
  have hsl : extract_endpoint_slice ghostProc "/g" "get" = .ok (.obj [
      ("openapi", .str "3.0.0"),
      ("info", .obj []),
      ("servers", .arr []),
      ("paths", .obj [("/g", .obj [("get", refObj "Ghost")])]),
      ("components", .obj [("schemas", .obj [])])]) := by
    rw [slice_found ghostProc "/g" "get" (refObj "Ghost") rfl]
    rfl
  exact ⟨hop, hsl,
    C10_schema_key_set ghostProc "/g" "get" (refObj "Ghost") _ _ []
      hop hsl rfl rfl⟩
